import Mathlib

/-!
# wfem: the sparse system store of `cmd/fem/solver/eigen.cpp`

A shallow embedding of the C-callable facade over `Eigen::SparseMatrix<double>`
and `Eigen::VectorXd`, and the properties of its assembly, boundary-condition
and solve operations.

Modelling choices.

* `double` is modelled by `ℚ`: arithmetic is exact.
* `Eigen::SparseMatrix<double>` is column-major. It is modelled by its
  dimensions and, per column (outer index), the list of stored
  `(row, value)` pairs in storage order. Eigen keeps each such inner vector
  sorted by row; `SparseMatrix.WF` records this.
* `coeffRef(row, col)` searches the lower bound of `row` in column `col` and
  inserts an explicit zero there when the entry is absent. An index outside
  the matrix (Eigen's `eigen_assert`, undefined behaviour in release
  builds) is modelled by `none`.
* `reserve` only changes capacity; capacity is not part of the model. An
  insertion outside the loop of `SetBoundaryCondition` gives the same logical
  content whether or not Eigen reallocates. Inside that loop an insertion of
  the mirror entry into a column without a free reserved slot reallocates the
  buffer under the live `InnerIterator`, which is undefined behaviour; the
  model describes the loop on the runs where this does not happen. The results
  on `SetBoundaryCondition` are therefore stated for stores on which the loop
  inserts nothing (every off-diagonal entry of column `index` has its mirror
  stored), or evaluated on a store fresh from `InitMatrix` whose columns stay
  within their reserved slots.
* The two process-wide globals `mat` and `vec` are the fields of `System`,
  passed explicitly.
* The factorization (`PardisoLLT` / `SimplicialLLT`) is external: `SolveEigen`
  takes it as a function from the matrix to failure or a solve function.
-/

namespace Wfem

/-! ## Inner vectors of the sparse matrix -/

/-- One inner vector (a column): the stored `(row, value)` pairs. -/
abbrev InnerVec := List (Nat × ℚ)

namespace InnerVec

/-- Lower-bound search for `r`, then comparison of the index found: the
stored value at inner index `r`, if any. -/
def find : InnerVec → Nat → Option ℚ
  | [], _ => none
  | (k, x) :: t, r => if k < r then find t r else if k = r then some x else none

/-- Insertion of an explicit zero at the lower bound of `r`. -/
def insertZero : InnerVec → Nat → InnerVec
  | [], r => [(r, 0)]
  | (k, x) :: t, r => if k < r then (k, x) :: insertZero t r else (r, 0) :: (k, x) :: t

/-- Assignment through the reference returned for inner index `r`. -/
def write : InnerVec → Nat → ℚ → InnerVec
  | [], _, _ => []
  | (k, x) :: t, r, v =>
    if k < r then (k, x) :: write t r v else if k = r then (k, v) :: t else (k, x) :: t

/-- The stored inner indices, in storage order. -/
def keys (l : InnerVec) : List Nat := l.map Prod.fst

/-- Inner indices strictly increasing and below the inner size. -/
def WF (n : Nat) (l : InnerVec) : Prop :=
  l.keys.Pairwise (fun a b => a < b) ∧ ∀ k ∈ l.keys, k < n

instance (n : Nat) (l : InnerVec) : Decidable (WF n l) := by
  unfold WF; exact inferInstance

end InnerVec

/-! ## The sparse matrix and the dense vector -/

/-- Logical content of an `Eigen::SparseMatrix<double>` (column-major). -/
structure SparseMatrix where
  rows : Nat
  cols : Nat
  outer : List InnerVec
  deriving DecidableEq

namespace SparseMatrix

/-- The inner vector of column `c`. -/
def inner (m : SparseMatrix) (c : Nat) : InnerVec := m.outer.getD c []

/-- Whether entry `(r, c)` is structurally stored. -/
def stored (m : SparseMatrix) (r c : Nat) : Bool := ((m.inner c).find r).isSome

/-- Read-only lookup (`coeff`): the stored value, zero when absent. -/
def coeff (m : SparseMatrix) (r c : Nat) : ℚ := ((m.inner c).find r).getD 0

/-- Eigen `resize(rows, cols)`: new dimensions, all entries dropped. -/
def resize (_m : SparseMatrix) (rows cols : Nat) : SparseMatrix :=
  { rows := rows, cols := cols, outer := List.replicate cols [] }

/-- Eigen `setZero()`: all entries dropped, dimensions kept. -/
def setZero (m : SparseMatrix) : SparseMatrix :=
  { m with outer := List.replicate m.cols [] }

/-- Eigen `reserve(sizes)`: capacity only, the logical content is unchanged. -/
def reserve (m : SparseMatrix) (_sizes : List Int) : SparseMatrix := m

/-- Eigen `coeffRef(row, col)`: the matrix after the lookup (with an explicit zero
inserted when the entry was absent) and the value the reference points to. -/
def coeffRef (m : SparseMatrix) (row col : Int) : Option (SparseMatrix × ℚ) :=
  if 0 ≤ row ∧ row < m.rows ∧ 0 ≤ col ∧ col < m.cols then
    match (m.inner col.toNat).find row.toNat with
    | some x => some (m, x)
    | none =>
      some ({ m with outer := m.outer.set col.toNat ((m.inner col.toNat).insertZero row.toNat) }, 0)
  else none

/-- Assignment through the reference obtained from `coeffRef(row, col)`. -/
def assign (m : SparseMatrix) (row col : Int) (v : ℚ) : SparseMatrix :=
  { m with outer := m.outer.set col.toNat ((m.inner col.toNat).write row.toNat v) }

/-- Representation invariant of a square matrix of size `n`. -/
def WF (n : Nat) (m : SparseMatrix) : Prop :=
  m.rows = n ∧ m.cols = n ∧ m.outer.length = n ∧ ∀ l ∈ m.outer, InnerVec.WF n l

instance (n : Nat) (m : SparseMatrix) : Decidable (WF n m) := by
  unfold WF; exact inferInstance

end SparseMatrix

/-- Logical content of an `Eigen::VectorXd`. -/
abbrev VectorXd := List ℚ

namespace VectorXd

/-- Read of `vec(i)`. -/
def get (v : VectorXd) (i : Int) : Option ℚ :=
  if 0 ≤ i ∧ i < v.length then v[i.toNat]? else none

/-- Write `vec(i) = x`. -/
def put (v : VectorXd) (i : Int) (x : ℚ) : Option VectorXd :=
  if 0 ≤ i ∧ i < v.length then some (v.set i.toNat x) else none

/-- Resize followed by `setZero()`. -/
def zero (n : Nat) : VectorXd := List.replicate n 0

end VectorXd

/-! ## The store and its operations -/

/-- The two globals `mat` and `vec`. -/
structure System where
  mat : SparseMatrix
  vec : VectorXd
  deriving DecidableEq

/-- A system initialised with size `n`. -/
def System.WF (n : Nat) (s : System) : Prop :=
  s.mat.WF n ∧ s.vec.length = n

instance (n : Nat) (s : System) : Decidable (s.WF n) := by
  unfold System.WF; exact inferInstance

/-- The call `InitMatrix(size, max_non_zero)`: `mat.resize(size, size)`,
`mat.setZero()`, `vec.resize(size)`, `vec.setZero()`, then
`mat.reserve(VectorXi::Constant(size, max_non_zero))`. -/
def InitMatrix (s : System) (size max_non_zero : Int) : Option System :=
  if 0 ≤ size then
    let mat := (s.mat.resize size.toNat size.toNat).setZero
    let vec := VectorXd.zero size.toNat
    some { mat := mat.reserve (List.replicate size.toNat max_non_zero), vec := vec }
  else none

/-- The call `SetMatrix(row, col, value)`: `mat.coeffRef(row, col) = value`. -/
def SetMatrix (s : System) (row col : Int) (value : ℚ) : Option System :=
  (s.mat.coeffRef row col).map fun p => { s with mat := p.1.assign row col value }

/-- The call `AddMatrix(row, col, value)`: `mat.coeffRef(row, col) += value`. -/
def AddMatrix (s : System) (row col : Int) (value : ℚ) : Option System :=
  (s.mat.coeffRef row col).map fun p => { s with mat := p.1.assign row col (p.2 + value) }

/-- The call `SetVector(i, value)`: `vec(i) = value`. -/
def SetVector (s : System) (i : Int) (value : ℚ) : Option System :=
  (s.vec.put i value).map fun v => { s with vec := v }

/-- The call `AddVector(i, value)`: `vec(i) += value`. -/
def AddVector (s : System) (i : Int) (value : ℚ) : Option System :=
  (s.vec.get i).bind fun x => (s.vec.put i (x + value)).map fun v => { s with vec := v }

/-- The call `GetMatrix(row, col)`: `return mat.coeffRef(row, col)`. The result
is the value returned and the store after the call. -/
def GetMatrix (s : System) (row col : Int) : Option (ℚ × System) :=
  (s.mat.coeffRef row col).map fun p => (p.2, { s with mat := p.1 })

/-- The call `GetVector(i)`: `return vec(i)`. -/
def GetVector (s : System) (i : Int) : Option ℚ := s.vec.get i

/-- Body of the `InnerIterator` loop of `SetBoundaryCondition`: `n` entries
remain, the iterator stands at position `p` of column `index`. The loop reads
the entry at its position in the current column, as the iterator does through
Eigen's buffer. This is what the code does as long as the buffer is not
reallocated under the iterator, that is whenever the mirror entry written by
`mat.coeffRef(i.col(), i.row())` is already stored or its column has a free
reserved slot. -/
def bcLoop (index : Int) (value : ℚ) : Nat → Nat → SparseMatrix → Option SparseMatrix
  | 0, _, m => some m
  | n + 1, p, m =>
    match (m.inner index.toNat)[p]? with
    | none => none
    | some e =>
      let row : Int := e.1
      let col : Int := index
      if row ≠ col then
        (m.coeffRef row col).bind fun a =>
          ((a.1.assign row col value).coeffRef col row).bind fun b =>
            bcLoop index value n (p + 1) (b.1.assign col row value)
      else bcLoop index value n (p + 1) m

/-- Entries `(r, c)` overwritten by the loop over column `i` when the rows
still to visit are `ks`. -/
abbrev bcTouched (ks : List Nat) (i r c : Nat) : Prop :=
  (c = i ∧ r ≠ i ∧ r ∈ ks) ∨ (r = i ∧ c ≠ i ∧ c ∈ ks)

/-- The call `SetBoundaryCondition(index, value)`: the loop over the inner
iterator of column `index`, then `vec(index) = value * mat.coeffRef(index, index)`. -/
def SetBoundaryCondition (s : System) (index : Int) (value : ℚ) : Option System :=
  if 0 ≤ index ∧ index < s.mat.cols then
    (bcLoop index value (s.mat.inner index.toNat).length 0 s.mat).bind fun m =>
      (m.coeffRef index index).bind fun d =>
        (s.vec.put index (value * d.2)).map fun v => { mat := d.1, vec := v }
  else none

/-- The external factorization: failure, or a solve function. -/
abbrev Factorization := SparseMatrix → Option (VectorXd → VectorXd)

/-- The copy loop `for (i = 0u; i < mat.rows(); i++) res[i] = vec[i]`, with
`n` iterations left from position `i`. -/
def copyLoop (vec : VectorXd) : Nat → Nat → List ℚ → Option (List ℚ)
  | 0, _, res => some res
  | n + 1, i, res =>
    match vec[i]? with
    | none => none
    | some x => if i < res.length then copyLoop vec n (i + 1) (res.set i x) else none

/-- The call `SolveEigen(res)`: the status returned, the buffer and the store
after the call. A failed factorization returns 1 at once; otherwise `vec`
becomes the solution, is copied to `res`, and `mat` and `vec` are resized to
empty before 0 is returned. -/
def SolveEigen (compute : Factorization) (s : System) (res : List ℚ) :
    Option (Int × List ℚ × System) :=
  match compute s.mat with
  | none => some (1, res, s)
  | some solve =>
    let vec := solve s.vec
    (copyLoop vec s.mat.rows 0 res).map fun out =>
      (0, out, { mat := s.mat.resize 0 0, vec := [] })


/-! ## Exact solution of the linear system -/

/-- Dense view of the coefficients, as a square matrix over the rows. -/
def SparseMatrix.toMatrix (m : SparseMatrix) : Matrix (Fin m.rows) (Fin m.rows) ℚ :=
  Matrix.of fun i j => m.coeff i j

/-- The vector as a function on the indices below `n`. -/
def VectorXd.toFun (n : Nat) (x : VectorXd) : Fin n → ℚ := fun j => x.getD j 0

/-- Product `A x` of the matrix with a dense vector. -/
def SparseMatrix.mulVec (m : SparseMatrix) (x : VectorXd) : VectorXd :=
  List.ofFn (m.toMatrix.mulVec (x.toFun m.rows))

/-- Symmetric positive-definite square matrix. -/
def SparseMatrix.IsSPD (m : SparseMatrix) : Prop :=
  m.rows = m.cols ∧ m.toMatrix.IsSymm ∧
    ∀ x : Fin m.rows → ℚ, x ≠ 0 → 0 < Matrix.dotProduct x (m.toMatrix.mulVec x)

/-- A factorization that succeeds on every symmetric positive-definite matrix
`A` and whose solve function returns the exact solution of `A x = b`. -/
def ExactOnSPD (compute : Factorization) : Prop :=
  ∀ m : SparseMatrix, m.IsSPD → ∃ solve, compute m = some solve ∧
    ∀ b : VectorXd, b.length = m.rows →
      (solve b).length = m.rows ∧ m.mulVec (solve b) = b

/-- A direct solver that is exact wherever the determinant is not zero:
`x = det(A)⁻¹ adj(A) b`. -/
def adjugateSolve : Factorization := fun m =>
  if m.toMatrix.det = 0 then none
  else some fun b =>
    List.ofFn ((m.toMatrix.det)⁻¹ • m.toMatrix.adjugate.mulVec (b.toFun m.rows))

/-- The call sequence of the known small system: `InitMatrix(2, 2)`, four
`SetMatrix` for `A = [[4, 1], [1, 3]]` and two `SetVector` for `b = [1, 2]`. -/
def smallSystem (s0 : System) : Option System :=
  (InitMatrix s0 2 2).bind fun s =>
  (SetMatrix s 0 0 4).bind fun s =>
  (SetMatrix s 0 1 1).bind fun s =>
  (SetMatrix s 1 0 1).bind fun s =>
  (SetMatrix s 1 1 3).bind fun s =>
  (SetVector s 0 1).bind fun s =>
  SetVector s 1 2

/-- A store of size 3 with a symmetric pattern and off-diagonal entries in
row and column 0: `A = [[2, 1, 1], [1, 2, 0], [1, 0, 2]]`, `b = [4, 5, 6]`. -/
def sample3 : System :=
  ⟨⟨3, 3, [[(0, 2), (1, 1), (2, 1)], [(0, 1), (1, 2)], [(0, 1), (2, 2)]]⟩, [4, 5, 6]⟩

namespace InnerVec

theorem find_insertZero_self (l : InnerVec) (r : Nat) (h : l.find r = none) :
    (l.insertZero r).find r = some 0 := by
  induction l with
  | nil => simp [insertZero, find]
  | cons e t ih =>
    obtain ⟨k, x⟩ := e
    by_cases hk : k < r
    · simp only [find, hk, if_true] at h
      simp [insertZero, find, hk, ih h]
    · simp [insertZero, find, hk]

theorem find_insertZero_ne (l : InnerVec) (r r' : Nat) (h : r' ≠ r) :
    (l.insertZero r).find r' = l.find r' := by
  induction l with
  | nil => simp [insertZero, find, Ne.symm h]
  | cons e t ih =>
    obtain ⟨k, x⟩ := e
    by_cases hk : k < r
    · simp [insertZero, find, hk, ih]
    · simp only [insertZero, hk, if_false, find]
      by_cases h1 : r < r'
      · simp [h1]
      · have h2 : ¬ k < r' := by omega
        have h3 : k ≠ r' := by omega
        simp [h1, h2, h3, Ne.symm h]

theorem find_write_self (l : InnerVec) (r : Nat) (v : ℚ) :
    (l.write r v).find r = (l.find r).map fun _ => v := by
  induction l with
  | nil => simp [write, find]
  | cons e t ih =>
    obtain ⟨k, x⟩ := e
    by_cases hk : k < r
    · simp [write, find, hk, ih]
    · by_cases hk2 : k = r
      · simp [write, find, hk2]
      · simp [write, find, hk, hk2]

theorem find_write_ne (l : InnerVec) (r r' : Nat) (v : ℚ) (h : r' ≠ r) :
    (l.write r v).find r' = l.find r' := by
  induction l with
  | nil => simp [write, find]
  | cons e t ih =>
    obtain ⟨k, x⟩ := e
    by_cases hk : k < r
    · simp [write, find, hk, ih]
    · by_cases hk2 : k = r
      · subst hk2
        simp [write, find, Ne.symm h]
      · simp [write, find, hk, hk2]


theorem keys_write (l : InnerVec) (r : Nat) (v : ℚ) : (l.write r v).keys = l.keys := by
  induction l with
  | nil => simp [write]
  | cons e t ih =>
    obtain ⟨k, x⟩ := e
    by_cases hk : k < r
    · simp only [write, hk, if_true, keys, List.map_cons] at ih ⊢
      rw [ih]
    · by_cases hk2 : k = r
      · simp [write, keys, hk2]
      · simp [write, keys, hk, hk2]

theorem keys_insertZero (l : InnerVec) (r : Nat) :
    ∀ k, k ∈ (l.insertZero r).keys ↔ k = r ∨ k ∈ l.keys := by
  induction l with
  | nil => simp [insertZero, keys]
  | cons e t ih =>
    obtain ⟨k0, x⟩ := e
    intro k
    by_cases hk : k0 < r
    · simp only [insertZero, hk, if_true, keys, List.map_cons, List.mem_cons] at ih ⊢
      rw [ih k]; tauto
    · simp [insertZero, keys, hk]

/-- In a sorted inner vector the lower-bound search finds every stored pair. -/
theorem find_of_mem (l : InnerVec) (hs : l.keys.Pairwise (fun a b => a < b))
    (e : Nat × ℚ) (he : e ∈ l) : l.find e.1 = some e.2 := by
  induction l with
  | nil => simp at he
  | cons e0 t ih =>
    obtain ⟨k, x⟩ := e0
    simp only [keys, List.map_cons, List.pairwise_cons] at hs
    rcases List.mem_cons.mp he with h | h
    · subst h; simp [find]
    · have hlt : k < e.1 := hs.1 e.1 (List.mem_map_of_mem Prod.fst h)
      simp only [find, hlt, if_true]
      exact ih hs.2 h

theorem mem_keys_of_find (l : InnerVec) (r : Nat) (x : ℚ) (h : l.find r = some x) :
    (r, x) ∈ l := by
  induction l with
  | nil => simp [find] at h
  | cons e0 t ih =>
    obtain ⟨k, y⟩ := e0
    by_cases hk : k < r
    · simp only [find, hk, if_true] at h
      exact List.mem_cons_of_mem _ (ih h)
    · by_cases hk2 : k = r
      · simp [find, hk2] at h
        simp [hk2, h]
      · simp [find, hk, hk2] at h

theorem wf_write {n : Nat} (l : InnerVec) (r : Nat) (v : ℚ) (h : WF n l) :
    WF n (l.write r v) := by
  unfold WF at *
  rw [keys_write]; exact h

theorem sorted_insertZero (l : InnerVec) (r : Nat)
    (hs : l.keys.Pairwise (fun a b => a < b)) (hf : l.find r = none) :
    (l.insertZero r).keys.Pairwise (fun a b => a < b) := by
  induction l with
  | nil => simp [insertZero, keys]
  | cons e0 t ih =>
    obtain ⟨k, x⟩ := e0
    simp only [keys, List.map_cons, List.pairwise_cons] at hs
    by_cases hk : k < r
    · simp only [find, hk, if_true] at hf
      have iht := ih hs.2 hf
      simp only [insertZero, hk, if_true, keys, List.map_cons, List.pairwise_cons]
      refine ⟨?_, iht⟩
      intro a ha
      rcases (keys_insertZero t r a).mp ha with h | h
      · omega
      · exact hs.1 a h
    · have hk2 : k ≠ r := by
        intro hk2; simp [find, hk2] at hf
      simp only [insertZero, hk, if_false, keys, List.map_cons, List.pairwise_cons]
      refine ⟨?_, hs⟩
      intro a ha
      rcases List.mem_cons.mp ha with h | h
      · omega
      · have := hs.1 a h; omega

theorem wf_insertZero {n : Nat} (l : InnerVec) (r : Nat) (hr : r < n) (h : WF n l)
    (hf : l.find r = none) : WF n (l.insertZero r) := by
  refine ⟨sorted_insertZero l r h.1 hf, ?_⟩
  intro k hk
  rcases (keys_insertZero l r k).mp hk with h1 | h1
  · omega
  · exact h.2 k h1

end InnerVec


/-! ## Sparse matrix lemmas -/

namespace SparseMatrix

theorem inner_set (m : SparseMatrix) (c c' : Nat) (l : InnerVec) :
    inner { m with outer := m.outer.set c l } c' =
      if c' = c ∧ c < m.outer.length then l else m.inner c' := by
  unfold inner
  by_cases h : c' = c
  · subst h
    by_cases hl : c' < m.outer.length
    · simp [hl, List.getD_eq_getElem?_getD]
    · have hle : m.outer.length ≤ c' := by omega
      simp [hl, List.set_eq_of_length_le hle]
  · simp [h, List.getD_eq_getElem?_getD, List.getElem?_set_ne (Ne.symm h)]

theorem wf_inner {n : Nat} {m : SparseMatrix} (hm : m.WF n) (c : Nat) :
    InnerVec.WF n (m.inner c) := by
  unfold inner
  by_cases hc : c < m.outer.length
  · rw [List.getD_eq_getElem?_getD, List.getElem?_eq_getElem hc]
    exact hm.2.2.2 _ (List.getElem_mem hc)
  · rw [List.getD_eq_getElem?_getD, List.getElem?_eq_none (by omega)]
    simp [InnerVec.WF, InnerVec.keys]

theorem wf_set {n : Nat} {m : SparseMatrix} (hm : m.WF n) (c : Nat) (l : InnerVec)
    (hl : InnerVec.WF n l) : WF n { m with outer := m.outer.set c l } := by
  obtain ⟨h1, h2, h3, h4⟩ := hm
  refine ⟨h1, h2, by simpa using h3, ?_⟩
  intro l' hl'
  rcases List.mem_or_eq_of_mem_set hl' with h | h
  · exact h4 l' h
  · rw [h]; exact hl

theorem coeffRef_spec {n : Nat} {m : SparseMatrix} (hm : m.WF n) (r c : Nat)
    (hr : r < n) (hc : c < n) :
    ∃ m', m.coeffRef r c = some (m', m.coeff r c) ∧ m'.WF n ∧
      (∀ c', c' ≠ c → m'.inner c' = m.inner c') ∧
      (∀ r', (m'.inner c).find r' =
        if r' = r then some (m.coeff r c) else (m.inner c).find r') ∧
      (m.stored r c = true → m' = m) := by
  have hrng : (0 : Int) ≤ r ∧ (r : Int) < m.rows ∧ (0 : Int) ≤ c ∧ (c : Int) < m.cols := by
    rw [hm.1, hm.2.1]; omega
  unfold coeffRef
  rw [if_pos hrng]
  simp only [Int.toNat_ofNat]
  cases hf : (m.inner c).find r with
  | some x =>
    refine ⟨m, ?_, hm, fun _ _ => rfl, ?_, fun _ => rfl⟩
    · simp [coeff, hf]
    · intro r'
      by_cases h : r' = r
      · simp [h, coeff, hf]
      · simp [h]
  | none =>
    refine ⟨{ m with outer := m.outer.set c ((m.inner c).insertZero r) }, ?_, ?_, ?_, ?_, ?_⟩
    · simp [coeff, hf]
    · exact wf_set hm c _ (InnerVec.wf_insertZero _ r hr (wf_inner hm c) hf)
    · intro c' hc'
      rw [inner_set]; simp [hc']
    · intro r'
      rw [inner_set]
      have : c < m.outer.length := by rw [hm.2.2.1]; exact hc
      simp only [this, and_self, if_true]
      by_cases h : r' = r
      · subst h
        simp [coeff, hf, InnerVec.find_insertZero_self _ _ hf]
      · simp [h, InnerVec.find_insertZero_ne _ _ _ h]
    · intro hs
      simp [stored, hf] at hs

theorem assign_spec {n : Nat} {m : SparseMatrix} (hm : m.WF n) (r c : Nat) (hc : c < n)
    (v : ℚ) :
    (m.assign r c v).WF n ∧
      (∀ c', c' ≠ c → (m.assign r c v).inner c' = m.inner c') ∧
      ((m.assign r c v).inner c).keys = (m.inner c).keys ∧
      (∀ r', ((m.assign r c v).inner c).find r' =
        if r' = r then ((m.inner c).find r).map (fun _ => v) else (m.inner c).find r') := by
  have hlen : c < m.outer.length := by rw [hm.2.2.1]; exact hc
  unfold assign
  simp only [Int.toNat_ofNat]
  refine ⟨wf_set hm c _ (InnerVec.wf_write _ r v (wf_inner hm c)), ?_, ?_, ?_⟩
  · intro c' hc'
    rw [inner_set]; simp [hc']
  · rw [inner_set]; simp [hlen, InnerVec.keys_write]
  · intro r'
    rw [inner_set]
    simp only [hlen, and_self, if_true]
    by_cases h : r' = r
    · subst h; simp [InnerVec.find_write_self]
    · simp [h, InnerVec.find_write_ne _ _ _ _ h]

/-- Effect of `coeffRef(r, c) = v` on a well-formed matrix. -/
theorem setCoeff_spec {n : Nat} {m : SparseMatrix} (hm : m.WF n) (r c : Nat)
    (hr : r < n) (hc : c < n) (v : ℚ) :
    ∃ m1, m.coeffRef r c = some (m1, m.coeff r c) ∧ (m1.assign r c v).WF n ∧
      (∀ c', c' ≠ c → (m1.assign r c v).inner c' = m.inner c') ∧
      (∀ r', ((m1.assign r c v).inner c).find r' =
        if r' = r then some v else (m.inner c).find r') ∧
      (m.stored r c = true → ((m1.assign r c v).inner c).keys = (m.inner c).keys) := by
  obtain ⟨m1, h1, hw1, hc1, hf1, hs1⟩ := coeffRef_spec hm r c hr hc
  obtain ⟨hw2, hc2, hk2, hf2⟩ := assign_spec hw1 r c hc v
  refine ⟨m1, h1, hw2, ?_, ?_, ?_⟩
  · intro c' hc'
    rw [hc2 c' hc', hc1 c' hc']
  · intro r'
    rw [hf2 r']
    by_cases h : r' = r
    · simp [h, hf1]
    · simp [h, hf1]
  · intro hs
    rw [hk2, hs1 hs]

end SparseMatrix

/-! ## The boundary-condition loop -/

theorem bcLoop_spec {n : Nat} (i : Nat) (hi : i < n) (v : ℚ) (ks : List Nat) :
    ∀ (fuel p : Nat) (m : SparseMatrix), m.WF n → (m.inner i).keys = ks →
      p + fuel = ks.length →
      ∃ m', bcLoop i v fuel p m = some m' ∧ m'.WF n ∧ (m'.inner i).keys = ks ∧
        ∀ r c, (m'.inner c).find r =
          if bcTouched (ks.drop p) i r c then some v else (m.inner c).find r := by
  intro fuel
  induction fuel with
  | zero =>
    intro p m hm hk hp
    refine ⟨m, rfl, hm, hk, ?_⟩
    intro r c
    have : ks.drop p = [] := List.drop_eq_nil_of_le (by omega)
    rw [this]
    simp [bcTouched]
  | succ f ih =>
    intro p m hm hk hp
    have hpk : p < ks.length := by omega
    have hpl : p < (m.inner i).length := by
      have := congrArg List.length hk
      simp only [InnerVec.keys, List.length_map] at this
      omega
    have hget : (m.inner i)[p]? = some ((m.inner i)[p]) := List.getElem?_eq_getElem hpl
    have hmem : (m.inner i)[p] ∈ m.inner i := List.getElem_mem hpl
    have hkp : ks[p] = ((m.inner i)[p]).1 := by
      subst hk; simp [InnerVec.keys]
    have hdrop : ks.drop p = ((m.inner i)[p]).1 :: ks.drop (p + 1) := by
      rw [← hkp]; exact List.drop_eq_getElem_cons hpk
    have hwi := SparseMatrix.wf_inner hm i
    have hjn : ((m.inner i)[p]).1 < n :=
      hwi.2 _ (List.mem_map_of_mem Prod.fst hmem)
    have hfind := InnerVec.find_of_mem _ hwi.1 _ hmem
    generalize (m.inner i)[p] = e at hget hmem hkp hdrop hjn hfind
    obtain ⟨j, x⟩ := e
    simp only at hjn hfind hdrop
    unfold bcLoop
    simp only [Int.toNat_ofNat, hget]
    by_cases hji : j = i
    · subst hji
      obtain ⟨m', h1, h2, h3, h4⟩ := ih (p + 1) m hm hk (by omega)
      refine ⟨m', by simpa using h1, h2, h3, ?_⟩
      intro r c
      rw [h4 r c, hdrop]
      by_cases hc : bcTouched (List.drop (p + 1) ks) j r c
      · have : bcTouched (j :: List.drop (p + 1) ks) j r c := by
          rcases hc with hc | hc
          · exact Or.inl ⟨hc.1, hc.2.1, List.mem_cons_of_mem _ hc.2.2⟩
          · exact Or.inr ⟨hc.1, hc.2.1, List.mem_cons_of_mem _ hc.2.2⟩
        simp [hc, this]
      · have : ¬ bcTouched (j :: List.drop (p + 1) ks) j r c := by
          rintro (h | h)
          · rcases List.mem_cons.mp h.2.2 with h' | h'
            · exact h.2.1 h'
            · exact hc (Or.inl ⟨h.1, h.2.1, h'⟩)
          · rcases List.mem_cons.mp h.2.2 with h' | h'
            · exact h.2.1 h'
            · exact hc (Or.inr ⟨h.1, h.2.1, h'⟩)
        simp only [hc, this, if_false]
    · have hne : ((j : Nat) : Int) ≠ (i : Int) := by
        intro h; exact hji (Int.ofNat_inj.mp h)
      have hst : m.stored j i = true := by simp [SparseMatrix.stored, hfind]
      obtain ⟨a, ha, hwa, hca, hfa, hka⟩ := SparseMatrix.setCoeff_spec hm j i hjn hi v
      obtain ⟨b, hb, hwb, hcb, hfb, _⟩ :=
        SparseMatrix.setCoeff_spec hwa i j hi hjn v
      have hkb : ((b.assign i j v).inner i).keys = ks := by
        rw [hcb i (Ne.symm hji), hka hst, hk]
      obtain ⟨m', h1, h2, h3, h4⟩ := ih (p + 1) _ hwb hkb (by omega)
      refine ⟨m', ?_, h2, h3, ?_⟩
      · simp only [ne_eq, hne, not_false_eq_true, if_true, ha, Option.some_bind, hb]
        exact h1
      · intro r c
        rw [h4 r c, hdrop]
        by_cases hc : bcTouched (List.drop (p + 1) ks) i r c
        · have : bcTouched (j :: List.drop (p + 1) ks) i r c := by
            rcases hc with hc | hc
            · exact Or.inl ⟨hc.1, hc.2.1, List.mem_cons_of_mem _ hc.2.2⟩
            · exact Or.inr ⟨hc.1, hc.2.1, List.mem_cons_of_mem _ hc.2.2⟩
          simp [hc, this]
        · simp only [hc, if_false]
          by_cases hcj : c = j
          · subst hcj
            rw [hfb r]
            by_cases hri : r = i
            · subst hri
              have : bcTouched (c :: List.drop (p + 1) ks) r r c :=
                Or.inr ⟨rfl, hji, List.mem_cons_self _ _⟩
              simp [this]
            · have : ¬ bcTouched (c :: List.drop (p + 1) ks) i r c := by
                rintro (h | h)
                · exact hji h.1
                · exact hri h.1
              simp only [hri, this, if_false]
              rw [hca c hji]
          · rw [hcb c hcj]
            by_cases hci : c = i
            · subst hci
              rw [hfa r]
              by_cases hrj : r = j
              · subst hrj
                have : bcTouched (r :: List.drop (p + 1) ks) c r c :=
                  Or.inl ⟨rfl, hji, List.mem_cons_self _ _⟩
                simp [this]
              · have : ¬ bcTouched (j :: List.drop (p + 1) ks) c r c := by
                  rintro (h | h)
                  · rcases List.mem_cons.mp h.2.2 with h' | h'
                    · exact hrj h'
                    · exact hc (Or.inl ⟨rfl, h.2.1, h'⟩)
                  · exact h.2.1 rfl
                simp only [hrj, this, if_false]
            · rw [hca c hci]
              have : ¬ bcTouched (j :: List.drop (p + 1) ks) i r c := by
                rintro (h | h)
                · exact hci h.1
                · rcases List.mem_cons.mp h.2.2 with h' | h'
                  · exact hcj h'
                  · exact hc (Or.inr ⟨h.1, h.2.1, h'⟩)
              simp only [this, if_false]


/-! ## Effect of the store operations -/

theorem SetMatrix_spec {n : Nat} {s : System} (hs : s.WF n) (r c : Nat)
    (hr : r < n) (hc : c < n) (v : ℚ) :
    ∃ s', SetMatrix s r c v = some s' ∧ s'.WF n ∧ s'.vec = s.vec ∧
      ∀ r' c', (s'.mat.inner c').find r' =
        if r' = r ∧ c' = c then some v else (s.mat.inner c').find r' := by
  obtain ⟨m1, h1, hw, hc1, hf1, _⟩ := SparseMatrix.setCoeff_spec hs.1 r c hr hc v
  refine ⟨{ s with mat := m1.assign r c v }, by simp [SetMatrix, h1], ⟨hw, hs.2⟩, rfl, ?_⟩
  intro r' c'
  by_cases hcc : c' = c
  · subst hcc
    simp only [hf1 r', and_true]
  · simp only [hc1 c' hcc, hcc, and_false, if_false]

theorem AddMatrix_spec {n : Nat} {s : System} (hs : s.WF n) (r c : Nat)
    (hr : r < n) (hc : c < n) (v : ℚ) :
    ∃ s', AddMatrix s r c v = some s' ∧ s'.WF n ∧ s'.vec = s.vec ∧
      ∀ r' c', (s'.mat.inner c').find r' =
        if r' = r ∧ c' = c then some (s.mat.coeff r c + v) else (s.mat.inner c').find r' := by
  obtain ⟨m1, h1, hw, hc1, hf1, _⟩ :=
    SparseMatrix.setCoeff_spec hs.1 r c hr hc (s.mat.coeff r c + v)
  refine ⟨{ s with mat := m1.assign r c (s.mat.coeff r c + v) }, by simp [AddMatrix, h1],
    ⟨hw, hs.2⟩, rfl, ?_⟩
  intro r' c'
  by_cases hcc : c' = c
  · subst hcc
    simp only [hf1 r', and_true]
  · simp only [hc1 c' hcc, hcc, and_false, if_false]

theorem GetMatrix_spec {n : Nat} {s : System} (hs : s.WF n) (r c : Nat)
    (hr : r < n) (hc : c < n) :
    ∃ t, GetMatrix s r c = some (s.mat.coeff r c, t) ∧ t.WF n ∧ t.vec = s.vec ∧
      (∀ r' c', (t.mat.inner c').find r' =
        if r' = r ∧ c' = c then some (s.mat.coeff r c) else (s.mat.inner c').find r') ∧
      (s.mat.stored r c = true → t = s) := by
  obtain ⟨m1, h1, hw, hc1, hf1, hst⟩ := SparseMatrix.coeffRef_spec hs.1 r c hr hc
  refine ⟨{ s with mat := m1 }, by simp [GetMatrix, h1], ⟨hw, hs.2⟩, rfl, ?_, ?_⟩
  · intro r' c'
    by_cases hcc : c' = c
    · subst hcc
      simp only [hf1 r', and_true]
    · simp only [hc1 c' hcc, hcc, and_false, if_false]
  · intro h
    rw [hst h]

theorem coeff_of_find {m : SparseMatrix} {r c : Nat} {x : ℚ}
    (h : (m.inner c).find r = some x) : m.coeff r c = x := by
  simp [SparseMatrix.coeff, h]

theorem stored_of_find {m : SparseMatrix} {r c : Nat} {x : ℚ}
    (h : (m.inner c).find r = some x) : m.stored r c = true := by
  simp [SparseMatrix.stored, h]

theorem coeff_of_not_stored {m : SparseMatrix} {r c : Nat}
    (h : m.stored r c = false) : m.coeff r c = 0 := by
  unfold SparseMatrix.stored at h
  unfold SparseMatrix.coeff
  cases hf : (m.inner c).find r with
  | none => rfl
  | some x => simp [hf] at h

theorem get_spec (v : VectorXd) (i : Nat) (hi : i < v.length) :
    VectorXd.get v i = some (v.getD i 0) := by
  have h : (0 : Int) ≤ i ∧ (i : Int) < v.length := by omega
  unfold VectorXd.get
  rw [if_pos h]
  simp [List.getD_eq_getElem?_getD, List.getElem?_eq_getElem hi]

theorem put_spec (v : VectorXd) (i : Nat) (hi : i < v.length) (x : ℚ) :
    VectorXd.put v i x = some (v.set i x) := by
  have h : (0 : Int) ≤ i ∧ (i : Int) < v.length := by omega
  unfold VectorXd.put
  rw [if_pos h]
  simp

theorem getD_set_self (v : VectorXd) (i : Nat) (hi : i < v.length) (x : ℚ) :
    (v.set i x).getD i 0 = x := by
  simp [List.getD_eq_getElem?_getD, hi]

theorem AddVector_spec {n : Nat} {s : System} (hs : s.WF n) (i : Nat) (hi : i < n) (v : ℚ) :
    ∃ s', AddVector s i v = some s' ∧ s'.WF n ∧ s'.mat = s.mat ∧
      s'.vec = s.vec.set i (s.vec.getD i 0 + v) := by
  have hl : i < s.vec.length := by rw [hs.2]; exact hi
  refine ⟨{ s with vec := s.vec.set i (s.vec.getD i 0 + v) }, ?_, ⟨hs.1, ?_⟩, rfl, rfl⟩
  · simp [AddVector, get_spec _ _ hl, put_spec _ _ hl]
  · simpa using hs.2

theorem SetVector_spec {n : Nat} {s : System} (hs : s.WF n) (i : Nat) (hi : i < n) (v : ℚ) :
    ∃ s', SetVector s i v = some s' ∧ s'.WF n ∧ s'.mat = s.mat ∧ s'.vec = s.vec.set i v := by
  have hl : i < s.vec.length := by rw [hs.2]; exact hi
  refine ⟨{ s with vec := s.vec.set i v }, ?_, ⟨hs.1, ?_⟩, rfl, rfl⟩
  · simp [SetVector, put_spec _ _ hl]
  · simpa using hs.2

theorem SetBoundaryCondition_spec {n : Nat} {s : System} (hs : s.WF n) (i : Nat)
    (hi : i < n) (v : ℚ) :
    ∃ s', SetBoundaryCondition s i v = some s' ∧ s'.WF n ∧
      (∀ r c, (s'.mat.inner c).find r =
        if bcTouched (s.mat.inner i).keys i r c then some v
        else if r = i ∧ c = i then some (s.mat.coeff i i) else (s.mat.inner c).find r) ∧
      s'.vec = s.vec.set i (v * s.mat.coeff i i) := by
  have hl : i < s.vec.length := by rw [hs.2]; exact hi
  have hrng : (0 : Int) ≤ i ∧ (i : Int) < s.mat.cols := by
    rw [hs.1.2.1]; omega
  obtain ⟨m', h1, h2, _, h4⟩ :=
    bcLoop_spec i hi v (s.mat.inner i).keys (s.mat.inner i).length 0 s.mat hs.1 rfl
      (by simp [InnerVec.keys])
  have hdiag : m'.coeff i i = s.mat.coeff i i := by
    unfold SparseMatrix.coeff
    rw [h4 i i]
    have : ¬ bcTouched (List.drop 0 (s.mat.inner i).keys) i i i := by
      rintro (h | h)
      · exact h.2.1 rfl
      · exact h.2.1 rfl
    simp only [this, if_false]
  obtain ⟨t, ht, hwt, hct, hft, _⟩ := SparseMatrix.coeffRef_spec h2 i i hi hi
  refine ⟨{ mat := t, vec := s.vec.set i (v * s.mat.coeff i i) }, ?_, ⟨hwt, ?_⟩, ?_, rfl⟩
  · unfold SetBoundaryCondition
    rw [if_pos hrng]
    simp only [Int.toNat_ofNat, h1, Option.some_bind, ht, hdiag, put_spec _ _ hl,
      Option.map_some']
  · simpa using hs.2
  · intro r c
    have hd0 : List.drop 0 (s.mat.inner i).keys = (s.mat.inner i).keys := rfl
    by_cases hci : c = i
    · subst hci
      show (t.inner c).find r = _
      rw [hft r, hdiag]
      by_cases hrc : r = c
      · subst hrc
        have : ¬ bcTouched (s.mat.inner r).keys r r r := by
          rintro (h | h)
          · exact h.2.1 rfl
          · exact h.2.1 rfl
        simp [this]
      · rw [h4 r c, hd0]
        simp [hrc]
    · show (t.inner c).find r = _
      rw [hct c hci, h4 r c, hd0]
      simp [hci]

theorem copyLoop_spec (vec : VectorXd) :
    ∀ (n i : Nat) (res : List ℚ), i + n ≤ vec.length → i + n ≤ res.length →
      ∃ out, copyLoop vec n i res = some out ∧ out.length = res.length ∧
        ∀ k, out[k]? = if i ≤ k ∧ k < i + n then vec[k]? else res[k]? := by
  intro n
  induction n with
  | zero =>
    intro i res _ _
    refine ⟨res, rfl, rfl, ?_⟩
    intro k
    have : ¬ (i ≤ k ∧ k < i + 0) := by omega
    rw [if_neg this]
  | succ n ih =>
    intro i res hv hr
    have hiv : i < vec.length := by omega
    have hir : i < res.length := by omega
    obtain ⟨out, h1, h2, h3⟩ := ih (i + 1) (res.set i vec[i]) (by omega) (by simp; omega)
    refine ⟨out, ?_, by simpa using h2, ?_⟩
    · unfold copyLoop
      simp only [List.getElem?_eq_getElem hiv, hir, if_true]
      exact h1
    · intro k
      rw [h3 k]
      by_cases hk : k = i
      · subst hk
        have h5 : ¬ (k + 1 ≤ k ∧ k < k + 1 + n) := by omega
        have h6 : k ≤ k ∧ k < k + (n + 1) := by omega
        simp [h5, h6, hir, List.getElem?_eq_getElem hiv]
      · by_cases hk2 : i + 1 ≤ k ∧ k < i + 1 + n
        · have h6 : i ≤ k ∧ k < i + (n + 1) := by omega
          simp [hk2, h6]
        · have h6 : ¬ (i ≤ k ∧ k < i + (n + 1)) := by omega
          simp only [hk2, h6, if_false]
          rw [List.getElem?_set_ne (Ne.symm hk)]


theorem InitMatrix_spec (s0 : System) (n : Nat) (k : Int) :
    InitMatrix s0 n k =
      some { mat := { rows := n, cols := n, outer := List.replicate n [] },
             vec := List.replicate n 0 } := by
  simp [InitMatrix, SparseMatrix.resize, SparseMatrix.setZero, SparseMatrix.reserve,
    VectorXd.zero]

theorem inner_replicate (a b n c : Nat) :
    SparseMatrix.inner { rows := a, cols := b, outer := List.replicate n [] } c = [] := by
  unfold SparseMatrix.inner
  by_cases h : c < n
  · simp [List.getD_eq_getElem?_getD, h]
  · simp [List.getD_eq_getElem?_getD, h]

theorem wf_init (n : Nat) :
    System.WF n { mat := { rows := n, cols := n, outer := List.replicate n [] },
                  vec := List.replicate n 0 } := by
  refine ⟨⟨rfl, rfl, by simp, ?_⟩, by simp⟩
  intro l hl
  rw [(List.mem_replicate.mp hl).2]
  simp [InnerVec.WF, InnerVec.keys]

theorem addMany_spec {n : Nat} (r c : Nat) (hr : r < n) (hc : c < n) :
    ∀ (ws : List ℚ) (s : System) (x : ℚ), s.WF n → (s.mat.inner c).find r = some x →
      ∃ s2, ws.foldlM (fun a w => AddMatrix a r c w) s = some s2 ∧ s2.WF n ∧
        (s2.mat.inner c).find r = some (ws.foldl (fun a w => a + w) x) := by
  intro ws
  induction ws with
  | nil =>
    intro s x hs hx
    exact ⟨s, rfl, hs, hx⟩
  | cons w ws ih =>
    intro s x hs hx
    obtain ⟨s1, h1, hw1, _, hf1⟩ := AddMatrix_spec hs r c hr hc w
    have hx1 : (s1.mat.inner c).find r = some (x + w) := by
      rw [hf1 r c, coeff_of_find hx]; simp
    obtain ⟨s2, h2, hw2, hf2⟩ := ih s1 (x + w) hw1 hx1
    refine ⟨s2, ?_, hw2, ?_⟩
    · simp only [List.foldlM_cons, h1, Option.bind_eq_bind, Option.some_bind]
      exact h2
    · simpa using hf2

theorem foldl_add_eq_sum (ws : List ℚ) (x : ℚ) :
    ws.foldl (fun a w => a + w) x = x + ws.sum := by
  induction ws generalizing x with
  | nil => simp
  | cons w ws ih => simp [ih, add_assoc]

theorem GetMatrix_of_find {n : Nat} {s : System} (hs : s.WF n) (r c : Nat)
    (hr : r < n) (hc : c < n) {x : ℚ} (h : (s.mat.inner c).find r = some x) :
    GetMatrix s r c = some (x, s) := by
  obtain ⟨t, hg, _, _, _, hst⟩ := GetMatrix_spec hs r c hr hc
  rw [hst (stored_of_find h), coeff_of_find h] at hg
  exact hg

theorem mem_keys_of_stored {m : SparseMatrix} {r c : Nat} (h : m.stored r c = true) :
    r ∈ (m.inner c).keys := by
  unfold SparseMatrix.stored at h
  cases hf : (m.inner c).find r with
  | none => simp [hf] at h
  | some x => exact List.mem_map_of_mem Prod.fst (InnerVec.mem_keys_of_find _ _ _ hf)

theorem det_ne_zero_of_IsSPD {m : SparseMatrix} (h : m.IsSPD) : m.toMatrix.det ≠ 0 := by
  intro hd
  obtain ⟨v, hv, hmv⟩ := Matrix.exists_mulVec_eq_zero_iff.mpr hd
  have := h.2.2 v hv
  rw [hmv] at this
  simp at this

theorem toFun_ofFn (n : Nat) (f : Fin n → ℚ) : VectorXd.toFun n (List.ofFn f) = f := by
  funext j
  simp [VectorXd.toFun, List.getD_eq_getElem?_getD]

theorem ofFn_toFun (b : VectorXd) : List.ofFn (VectorXd.toFun b.length b) = b := by
  apply List.ext_getElem
  · simp
  · intro i h1 h2
    simp [VectorXd.toFun, List.getD_eq_getElem?_getD, h2]

theorem adjugateSolve_exact : ExactOnSPD adjugateSolve := by
  intro m hm
  have hd := det_ne_zero_of_IsSPD hm
  refine ⟨fun b => List.ofFn ((m.toMatrix.det)⁻¹ •
    m.toMatrix.adjugate.mulVec (b.toFun m.rows)), ?_, ?_⟩
  · simp only [adjugateSolve, hd, if_false]
  intro b hb
  refine ⟨by simp, ?_⟩
  unfold SparseMatrix.mulVec
  rw [toFun_ofFn, Matrix.mulVec_smul, Matrix.mulVec_mulVec, Matrix.mul_adjugate,
    Matrix.smul_mulVec_assoc, Matrix.one_mulVec, smul_smul, inv_mul_cancel₀ hd, one_smul,
    ← hb]
  exact ofFn_toFun b

theorem smallSystem_eq (s0 : System) :
    smallSystem s0 = some ⟨⟨2, 2, [[(0, 4), (1, 1)], [(0, 1), (1, 3)]]⟩, [1, 2]⟩ := by
  have h : InitMatrix s0 2 2 = some ⟨⟨2, 2, [[], []]⟩, [0, 0]⟩ := InitMatrix_spec s0 2 2
  unfold smallSystem
  rw [h]
  decide

theorem smallMatrix_quadratic (x : Fin 2 → ℚ) :
    Matrix.dotProduct x
      ((SparseMatrix.toMatrix ⟨2, 2, [[(0, 4), (1, 1)], [(0, 1), (1, 3)]]⟩).mulVec x) =
      3 * x 0 ^ 2 + (x 0 + x 1) ^ 2 + 2 * x 1 ^ 2 := by
  simp [Matrix.dotProduct, Matrix.mulVec, Fin.sum_univ_two, SparseMatrix.toMatrix,
    SparseMatrix.coeff, SparseMatrix.inner, InnerVec.find]
  ring

theorem smallMatrix_spd :
    SparseMatrix.IsSPD ⟨2, 2, [[(0, 4), (1, 1)], [(0, 1), (1, 3)]]⟩ := by
  refine ⟨rfl, ?_, ?_⟩
  · ext i j
    fin_cases i <;> fin_cases j <;>
      simp [SparseMatrix.toMatrix, SparseMatrix.coeff, SparseMatrix.inner, InnerVec.find]
  · intro x hx
    rw [smallMatrix_quadratic]
    have h : x 0 ≠ 0 ∨ x 1 ≠ 0 := by
      by_contra hcon
      push_neg at hcon
      apply hx
      funext i
      fin_cases i
      · exact hcon.1
      · exact hcon.2
    rcases h with h | h
    · have := sq_pos_of_ne_zero h
      nlinarith [sq_nonneg (x 0 + x 1), sq_nonneg (x 1)]
    · have := sq_pos_of_ne_zero h
      nlinarith [sq_nonneg (x 0 + x 1), sq_nonneg (x 0)]

theorem smallSystem_solve (compute : Factorization) (hex : ExactOnSPD compute)
    (s0 : System) (res : List ℚ) (hres : 2 ≤ res.length) :
    ∃ s out s', smallSystem s0 = some s ∧
      SolveEigen compute s res = some (0, out, s') ∧
      out[0]? = some (1 / 11) ∧ out[1]? = some (7 / 11) := by
  obtain ⟨solve, hc, hsol⟩ := hex _ smallMatrix_spd
  obtain ⟨hlen, hmul⟩ := hsol [1, 2] rfl
  obtain ⟨out, h1, _, h3⟩ := copyLoop_spec (solve [1, 2]) 2 0 res (by rw [hlen]) (by omega)
  refine ⟨_, out, ⟨⟨0, 0, []⟩, []⟩, smallSystem_eq s0, ?_, ?_⟩
  · simp only [SolveEigen, hc]
    rw [h1]; rfl
  · have e0 := h3 0
    have e1 := h3 1
    simp only [Nat.zero_le, true_and, zero_add, Nat.lt_succ_self, Nat.one_lt_ofNat, if_true,
      Nat.zero_lt_succ, Nat.ofNat_pos] at e0 e1
    rw [e0, e1]
    generalize solve [1, 2] = x at hlen hmul
    match x, hlen with
    | [x0, x1], _ =>
      have hm0 := congrArg (fun l => l[0]?) hmul
      have hm1 := congrArg (fun l => l[1]?) hmul
      simp [SparseMatrix.mulVec, Matrix.mulVec, Matrix.dotProduct, Fin.sum_univ_two,
        SparseMatrix.toMatrix, SparseMatrix.coeff, SparseMatrix.inner, InnerVec.find,
        VectorXd.toFun] at hm0 hm1
      have hx0 : x0 = 1 / 11 := by linarith
      have hx1 : x1 = 7 / 11 := by linarith
      simp [hx0, hx1]

/-! ## The claims -/

/-- C1 (accumulate): on a system initialised with size `N` and in-range
`r`, `c`, `i`, two successive `AddMatrix(r,c,·)` calls make `GetMatrix(r,c)`
return the previous value of the entry plus `v1 + v2`; an absent entry is
created as the added value, so the result is `v1 + v2` for an entry not yet
stored and right after `InitMatrix`. The same holds for `AddVector` and
`GetVector`. -/
theorem C1_accumulate (s : System) (N : Nat) (r c i : Int) (v1 v2 : ℚ)
    (hs : s.WF N) (hr0 : 0 ≤ r) (hr : r < N) (hc0 : 0 ≤ c) (hc : c < N)
    (hi0 : 0 ≤ i) (hi : i < N) :
    (∃ x t0 s1 s2 t, GetMatrix s r c = some (x, t0) ∧
        AddMatrix s r c v1 = some s1 ∧ AddMatrix s1 r c v2 = some s2 ∧
        GetMatrix s2 r c = some (x + v1 + v2, t) ∧
        (s.mat.stored r.toNat c.toNat = false →
          x = 0 ∧ s1.mat.stored r.toNat c.toNat = true ∧
          GetMatrix s1 r c = some (v1, s1) ∧ GetMatrix s2 r c = some (v1 + v2, t)) ∧
        (∀ s0 k, InitMatrix s0 N k = some s → GetMatrix s2 r c = some (v1 + v2, t))) ∧
    (∃ y u1 u2, GetVector s i = some y ∧
        AddVector s i v1 = some u1 ∧ AddVector u1 i v2 = some u2 ∧
        GetVector u2 i = some (y + v1 + v2) ∧
        (∀ s0 k, InitMatrix s0 N k = some s → GetVector u2 i = some (v1 + v2))) := by
  lift r to ℕ using hr0
  lift c to ℕ using hc0
  lift i to ℕ using hi0
  have hr' : r < N := by omega
  have hc' : c < N := by omega
  have hi' : i < N := by omega
  simp only [Int.toNat_ofNat]
  constructor
  · obtain ⟨t0, hg0, _, _, _, _⟩ := GetMatrix_spec hs r c hr' hc'
    obtain ⟨s1, h1, hw1, _, hf1⟩ := AddMatrix_spec hs r c hr' hc' v1
    obtain ⟨s2, h2, hw2, _, hf2⟩ := AddMatrix_spec hw1 r c hr' hc' v2
    obtain ⟨t, hg, _, _, _, _⟩ := GetMatrix_spec hw2 r c hr' hc'
    have e1 : (s1.mat.inner c).find r = some (s.mat.coeff r c + v1) := by
      rw [hf1 r c]; simp
    have e2 : s2.mat.coeff r c = s.mat.coeff r c + v1 + v2 := by
      apply coeff_of_find
      rw [hf2 r c, coeff_of_find e1]; simp
    rw [e2] at hg
    refine ⟨s.mat.coeff r c, t0, s1, s2, t, hg0, h1, h2, hg, ?_, ?_⟩
    · intro hns
      have hz := coeff_of_not_stored hns
      obtain ⟨t1, hg1, _, _, _, hst1⟩ := GetMatrix_spec hw1 r c hr' hc'
      have hs1 := stored_of_find e1
      rw [hst1 hs1, coeff_of_find e1, hz, zero_add] at hg1
      refine ⟨hz, hs1, hg1, ?_⟩
      rw [hg, hz, zero_add]
    · intro s0 k hinit
      rw [InitMatrix_spec] at hinit
      have hz : s.mat.coeff r c = 0 := by
        rw [← Option.some.inj hinit]
        simp [SparseMatrix.coeff, inner_replicate, InnerVec.find]
      rw [hg, hz, zero_add]
  · have hl : i < s.vec.length := by rw [hs.2]; exact hi'
    obtain ⟨u1, h1, hw1, _, hv1⟩ := AddVector_spec hs i hi' v1
    obtain ⟨u2, h2, hw2, _, hv2⟩ := AddVector_spec hw1 i hi' v2
    have hl1 : i < u1.vec.length := by rw [hw1.2]; exact hi'
    have hl2 : i < u2.vec.length := by rw [hw2.2]; exact hi'
    have e : u2.vec.getD i 0 = s.vec.getD i 0 + v1 + v2 := by
      rw [hv2, getD_set_self _ _ hl1, hv1, getD_set_self _ _ hl]
    have hg : GetVector u2 i = some (s.vec.getD i 0 + v1 + v2) := by
      unfold GetVector
      rw [get_spec _ _ hl2, e]
    refine ⟨s.vec.getD i 0, u1, u2, get_spec _ _ hl, h1, h2, hg, ?_⟩
    intro s0 k hinit
    rw [InitMatrix_spec] at hinit
    have hz : s.vec.getD i 0 = 0 := by
      rw [← Option.some.inj hinit]
      simp [List.getD_eq_getElem?_getD, hi']
    rw [hg, hz, zero_add]

theorem C1_accumulate_witness :
    sample3.WF 3 ∧
    (∃ x t0 s1 s2 t, GetMatrix sample3 1 0 = some (x, t0) ∧
        AddMatrix sample3 1 0 10 = some s1 ∧ AddMatrix s1 1 0 20 = some s2 ∧
        GetMatrix s2 1 0 = some (x + 10 + 20, t) ∧
        (sample3.mat.stored (1 : Int).toNat (0 : Int).toNat = false →
          x = 0 ∧ s1.mat.stored (1 : Int).toNat (0 : Int).toNat = true ∧
          GetMatrix s1 1 0 = some (10, s1) ∧ GetMatrix s2 1 0 = some (10 + 20, t)) ∧
        (∀ s0 k, InitMatrix s0 (3 : Nat) k = some sample3 →
          GetMatrix s2 1 0 = some (10 + 20, t))) ∧
    (∃ y u1 u2, GetVector sample3 2 = some y ∧
        AddVector sample3 2 10 = some u1 ∧ AddVector u1 2 20 = some u2 ∧
        GetVector u2 2 = some (y + 10 + 20) ∧
        (∀ s0 k, InitMatrix s0 (3 : Nat) k = some sample3 →
          GetVector u2 2 = some (10 + 20))) :=
  ⟨by decide, C1_accumulate sample3 3 1 0 2 10 20 (by decide) (by decide) (by decide)
    (by decide) (by decide) (by decide) (by decide)⟩

/-- C2 (overwrite): on a system initialised with size `N` and in-range `(r,c)`,
`SetMatrix(r,c,v)` followed by `AddMatrix(r,c,w)` for each `w` of a finite list
makes `GetMatrix(r,c)` return `v + w_1 + ... + w_k` whatever the entry held
before, and a subsequent `SetMatrix(r,c,v2)` makes it return exactly `v2`. -/
theorem C2_overwrite (s : System) (N : Nat) (r c : Int) (v v2 : ℚ) (ws : List ℚ)
    (hs : s.WF N) (hr0 : 0 ≤ r) (hr : r < N) (hc0 : 0 ≤ c) (hc : c < N) :
    ∃ s1 s2 s3, SetMatrix s r c v = some s1 ∧
      ws.foldlM (fun a w => AddMatrix a r c w) s1 = some s2 ∧
      GetMatrix s2 r c = some (ws.foldl (fun a w => a + w) v, s2) ∧
      ws.foldl (fun a w => a + w) v = v + ws.sum ∧
      SetMatrix s2 r c v2 = some s3 ∧
      GetMatrix s3 r c = some (v2, s3) := by
  lift r to ℕ using hr0
  lift c to ℕ using hc0
  have hr' : r < N := by omega
  have hc' : c < N := by omega
  obtain ⟨s1, h1, hw1, _, hf1⟩ := SetMatrix_spec hs r c hr' hc' v
  have e1 : (s1.mat.inner c).find r = some v := by rw [hf1 r c]; simp
  obtain ⟨s2, h2, hw2, e2⟩ := addMany_spec r c hr' hc' ws s1 v hw1 e1
  obtain ⟨t, hg, _, _, _, hst⟩ := GetMatrix_spec hw2 r c hr' hc'
  rw [hst (stored_of_find e2), coeff_of_find e2] at hg
  obtain ⟨s3, h3, hw3, _, hf3⟩ := SetMatrix_spec hw2 r c hr' hc' v2
  have e3 : (s3.mat.inner c).find r = some v2 := by rw [hf3 r c]; simp
  obtain ⟨t3, hg3, _, _, _, hst3⟩ := GetMatrix_spec hw3 r c hr' hc'
  rw [hst3 (stored_of_find e3), coeff_of_find e3] at hg3
  exact ⟨s1, s2, s3, h1, h2, hg, foldl_add_eq_sum ws v, h3, hg3⟩

theorem C2_overwrite_witness :
    sample3.WF 3 ∧
    ∃ s1 s2 s3, SetMatrix sample3 1 0 7 = some s1 ∧
      [1, 2, 3].foldlM (fun a w => AddMatrix a 1 0 w) s1 = some s2 ∧
      GetMatrix s2 1 0 = some ([1, 2, 3].foldl (fun a w => a + w) 7, s2) ∧
      [1, 2, 3].foldl (fun a w => a + w) (7 : ℚ) = 7 + [1, 2, 3].sum ∧
      SetMatrix s2 1 0 4 = some s3 ∧
      GetMatrix s3 1 0 = some (4, s3) :=
  ⟨by decide, C2_overwrite sample3 3 1 0 7 4 [1, 2, 3] (by decide)
    (by decide) (by decide) (by decide) (by decide)⟩

/-- C3 (Dirichlet elimination overwrites with the prescribed value): on a
system initialised with size `N` whose stored pattern is symmetric, after
`SetBoundaryCondition(index, v)` every off-diagonal entry `(index, j)` stored
before the call reads `v` at `(index, j)` and at `(j, index)`. -/
theorem C3_dirichlet_offdiag (s : System) (N : Nat) (index : Int) (v : ℚ)
    (hs : s.WF N)
    (hsym : ∀ r, r < N → ∀ c, c < N → s.mat.stored r c = s.mat.stored c r)
    (h0 : 0 ≤ index) (h1 : index < N) :
    ∃ s', SetBoundaryCondition s index v = some s' ∧
      ∀ j : Int, 0 ≤ j → j < N → j ≠ index →
        s.mat.stored index.toNat j.toNat = true →
        GetMatrix s' index j = some (v, s') ∧ GetMatrix s' j index = some (v, s') := by
  lift index to ℕ using h0 with i
  have hi : i < N := by omega
  obtain ⟨s', hsbc, hw', hf, _⟩ := SetBoundaryCondition_spec hs i hi v
  refine ⟨s', hsbc, ?_⟩
  intro j hj0 hj hne hst
  lift j to ℕ using hj0
  have hj' : j < N := by omega
  have hji : j ≠ i := fun h => hne (by rw [h])
  simp only [Int.toNat_ofNat] at hst
  have hst' : s.mat.stored j i = true := by rw [← hsym i hi j hj']; exact hst
  have hmem := mem_keys_of_stored hst'
  have e1 : (s'.mat.inner j).find i = some v := by
    rw [hf i j]
    have : bcTouched (s.mat.inner i).keys i i j := Or.inr ⟨rfl, hji, hmem⟩
    simp [this]
  have e2 : (s'.mat.inner i).find j = some v := by
    rw [hf j i]
    have : bcTouched (s.mat.inner i).keys i j i := Or.inl ⟨rfl, hji, hmem⟩
    simp [this]
  exact ⟨GetMatrix_of_find hw' i j hi hj' e1, GetMatrix_of_find hw' j i hj' hi e2⟩

theorem C3_dirichlet_offdiag_witness :
    sample3.WF 3 ∧
    (∀ r, r < 3 → ∀ c, c < 3 → sample3.mat.stored r c = sample3.mat.stored c r) ∧
    ∃ s', SetBoundaryCondition sample3 0 7 = some s' ∧
      ∀ j : Int, 0 ≤ j → j < (3 : Nat) → j ≠ 0 →
        sample3.mat.stored (0 : Int).toNat j.toNat = true →
        GetMatrix s' 0 j = some (7, s') ∧ GetMatrix s' j 0 = some (7, s') :=
  ⟨by decide, by decide,
    C3_dirichlet_offdiag sample3 3 0 7 (by decide) (by decide) (by decide) (by decide)⟩

/-- C5 (solve status and output): `SolveEigen(res)` returns 0 exactly when
the factorization of the current matrix succeeds and 1 exactly when it
fails. On success `res[i]` is component `i` of the solver's solution for the
current right-hand side for every `i < N`, and no other position of `res`
is written; on failure `res` is untouched. -/
theorem C5_solve_status (compute : Factorization) (s : System) (N : Nat) (res : List ℚ)
    (hs : s.WF N) (hres : N ≤ res.length)
    (hlen : ∀ solve, compute s.mat = some solve → (solve s.vec).length = N) :
    ∃ status out s', SolveEigen compute s res = some (status, out, s') ∧
      (status = 0 ↔ (compute s.mat).isSome = true) ∧
      (status = 1 ↔ compute s.mat = none) ∧
      (∀ solve, compute s.mat = some solve →
        (∀ i, i < N → out[i]? = (solve s.vec)[i]?) ∧
        (∀ i, N ≤ i → out[i]? = res[i]?) ∧ out.length = res.length) ∧
      (compute s.mat = none → out = res) := by
  cases hc : compute s.mat with
  | none =>
    refine ⟨1, res, s, by simp [SolveEigen, hc], by simp, by simp, ?_, fun _ => rfl⟩
    intro solve h
    exact Option.noConfusion h
  | some solve =>
    have hl := hlen solve hc
    obtain ⟨out, h1, h2, h3⟩ :=
      copyLoop_spec (solve s.vec) N 0 res (by omega) (by omega)
    refine ⟨0, out, { mat := s.mat.resize 0 0, vec := [] }, ?_, by simp, by simp, ?_, ?_⟩
    · simp [SolveEigen, hc, hs.1.1, h1]
    · intro solve' h
      have : solve' = solve := (Option.some.inj h).symm
      subst this
      refine ⟨?_, ?_, h2⟩
      · intro i hi
        rw [h3 i]
        have : 0 ≤ i ∧ i < 0 + N := by omega
        rw [if_pos this]
      · intro i hi
        rw [h3 i]
        have : ¬ (0 ≤ i ∧ i < 0 + N) := by omega
        rw [if_neg this]
    · intro h
      exact Option.noConfusion h

theorem C5_solve_status_witness :
    sample3.WF 3 ∧ 3 ≤ [9, 9, 9, 9].length ∧
    ∃ status out s',
      SolveEigen (fun _ => some fun b => b) sample3 [9, 9, 9, 9] = some (status, out, s') ∧
      (status = 0 ↔ (some fun b : VectorXd => b).isSome = true) ∧
      (status = 1 ↔ (some fun b : VectorXd => b) = none) ∧
      (∀ solve, (some fun b : VectorXd => b) = some solve →
        (∀ i, i < 3 → out[i]? = (solve sample3.vec)[i]?) ∧
        (∀ i, 3 ≤ i → out[i]? = ([9, 9, 9, 9] : List ℚ)[i]?) ∧
        out.length = [9, 9, 9, 9].length) ∧
      ((some fun b : VectorXd => b) = none → out = [9, 9, 9, 9]) :=
  ⟨by decide, by decide,
    C5_solve_status (fun _ => some fun b => b) sample3 3 [9, 9, 9, 9] (by decide) (by decide)
      (fun _ h => Option.some.inj h ▸ rfl)⟩

/-- C6 (failing input): on the store left by `InitMatrix(1, 1)` and
`SetMatrix(0, 0, -1)`, with a factorization that fails, `SolveEigen` returns 1
and leaves the store as it was, of size 1; with a factorization that succeeds
the same call returns 0 and empties the store. -/
theorem C6_failure_keeps_store :
    ∃ s, ((InitMatrix ⟨⟨0, 0, []⟩, []⟩ 1 1).bind fun a => SetMatrix a 0 0 (-1)) = some s ∧
      SolveEigen (fun _ => none) s [0] = some (1, [0], s) ∧
      s.mat.rows = 1 ∧ s.mat.cols = 1 ∧ s.vec.length = 1 ∧
      SolveEigen (fun _ => some fun b => b) s [0] = some (0, [0], ⟨⟨0, 0, []⟩, []⟩) :=
  ⟨⟨⟨1, 1, [[(0, -1)]]⟩, [0]⟩, by decide, by decide, rfl, rfl, rfl, by decide⟩

/-- C7 (failing input): on the store left by `InitMatrix(2, 2)`, the read
`GetMatrix(1, 0)` returns 0 and stores an explicit zero at `(1, 0)`, so the
store differs after the read; `SetBoundaryCondition(0, 5)` followed by
`GetMatrix(1, 0)` then yields 5 after the read and 0 without it. -/
theorem C7_read_inserts_entry :
    ∃ s t, InitMatrix ⟨⟨0, 0, []⟩, []⟩ 2 2 = some s ∧
      GetMatrix s 1 0 = some (0, t) ∧ t ≠ s ∧
      s.mat.stored 1 0 = false ∧ t.mat.stored 1 0 = true ∧
      ((SetBoundaryCondition s 0 5).bind fun u => (GetMatrix u 1 0).map Prod.fst) = some 0 ∧
      ((SetBoundaryCondition t 0 5).bind fun u => (GetMatrix u 1 0).map Prod.fst) = some 5 :=
  ⟨⟨⟨2, 2, [[], []]⟩, [0, 0]⟩, ⟨⟨2, 2, [[(1, 0)], []]⟩, [0, 0]⟩,
    by decide, by decide, by decide, by decide, by decide, by decide, by decide⟩

/-- C8 (idempotent Init): from any prior state and for every `n ≥ 0` and `k`,
`InitMatrix(n, k)` succeeds, a second `InitMatrix(n, k)` leaves the same
state, and that state has size `n`, no stored matrix entry, all matrix
reads zero and all vector reads zero. -/
theorem C8_init_idempotent (s0 : System) (n k : Int) (hn : 0 ≤ n) :
    ∃ s1, InitMatrix s0 n k = some s1 ∧ InitMatrix s1 n k = some s1 ∧
      s1.WF n.toNat ∧ s1.mat.rows = n.toNat ∧ s1.mat.cols = n.toNat ∧
      s1.vec.length = n.toNat ∧
      (∀ r c, s1.mat.stored r c = false) ∧
      (∀ r c : Int, 0 ≤ r → r < n → 0 ≤ c → c < n → ∃ t, GetMatrix s1 r c = some (0, t)) ∧
      (∀ i : Int, 0 ≤ i → i < n → GetVector s1 i = some 0) := by
  lift n to ℕ using hn
  simp only [Int.toNat_ofNat]
  have hw := wf_init n
  refine ⟨_, InitMatrix_spec s0 n k, InitMatrix_spec _ n k, hw, rfl, rfl, by simp, ?_, ?_, ?_⟩
  · intro r c
    simp [SparseMatrix.stored, inner_replicate, InnerVec.find]
  · intro r c hr0 hr hc0 hc
    lift r to ℕ using hr0
    lift c to ℕ using hc0
    obtain ⟨t, hg, _⟩ := GetMatrix_spec hw r c (by omega) (by omega)
    refine ⟨t, ?_⟩
    rw [hg]
    simp [SparseMatrix.coeff, inner_replicate, InnerVec.find]
  · intro i hi0 hi
    lift i to ℕ using hi0
    have hi' : i < n := by omega
    unfold GetVector
    rw [get_spec _ _ (by simpa using hi')]
    simp [List.getD_eq_getElem?_getD, hi']

theorem C8_init_idempotent_witness :
    (0 : Int) ≤ 2 ∧
    ∃ s1, InitMatrix sample3 2 5 = some s1 ∧ InitMatrix s1 2 5 = some s1 ∧
      s1.WF (2 : Int).toNat ∧ s1.mat.rows = (2 : Int).toNat ∧
      s1.mat.cols = (2 : Int).toNat ∧ s1.vec.length = (2 : Int).toNat ∧
      (∀ r c, s1.mat.stored r c = false) ∧
      (∀ r c : Int, 0 ≤ r → r < 2 → 0 ≤ c → c < 2 → ∃ t, GetMatrix s1 r c = some (0, t)) ∧
      (∀ i : Int, 0 ≤ i → i < 2 → GetVector s1 i = some 0) :=
  ⟨by decide, C8_init_idempotent sample3 2 5 (by decide)⟩

/-- C9 as amended (known small system): with a factorization that is exact
on symmetric positive-definite matrices, `InitMatrix(2,2)`, the four
`SetMatrix` of `A = [[4,1],[1,3]]`, the two `SetVector` of `b = [1,2]` and
`SolveEigen(res)` return status 0 and leave `res[0] = 1/11` and
`res[1] = 7/11`, which are within `1e-4` of `0.0909` and `0.6364`. -/
theorem C9_small_system (compute : Factorization) (hex : ExactOnSPD compute)
    (s0 : System) (res : List ℚ) (hres : 2 ≤ res.length) :
    ∃ s out s' x0 x1, smallSystem s0 = some s ∧
      SolveEigen compute s res = some (0, out, s') ∧
      out[0]? = some x0 ∧ out[1]? = some x1 ∧ x0 = 1 / 11 ∧ x1 = 7 / 11 ∧
      |x0 - 909 / 10000| ≤ 1 / 10000 ∧ |x1 - 6364 / 10000| ≤ 1 / 10000 := by
  obtain ⟨s, out, s', h1, h2, h3, h4⟩ := smallSystem_solve compute hex s0 res hres
  refine ⟨s, out, s', 1 / 11, 7 / 11, h1, h2, h3, h4, rfl, rfl, ?_, ?_⟩
  · rw [abs_le]; constructor <;> norm_num
  · rw [abs_le]; constructor <;> norm_num

theorem C9_small_system_witness :
    ExactOnSPD adjugateSolve ∧ 2 ≤ ([0, 0] : List ℚ).length ∧
    ∃ s out s' x0 x1, smallSystem ⟨⟨0, 0, []⟩, []⟩ = some s ∧
      SolveEigen adjugateSolve s [0, 0] = some (0, out, s') ∧
      out[0]? = some x0 ∧ out[1]? = some x1 ∧ x0 = 1 / 11 ∧ x1 = 7 / 11 ∧
      |x0 - 909 / 10000| ≤ 1 / 10000 ∧ |x1 - 6364 / 10000| ≤ 1 / 10000 :=
  ⟨adjugateSolve_exact, by decide,
    C9_small_system adjugateSolve adjugateSolve_exact ⟨⟨0, 0, []⟩, []⟩ [0, 0] (by decide)⟩

/-- C9 as stated fails: it is not the case that, for every factorization
exact on symmetric positive-definite matrices, the small system leaves
`res[0]` within `1e-6` of `0.0909` and `res[1]` within `1e-6` of `0.6364`. -/
theorem C9_tolerance_counterexample :
    ¬ (∀ compute : Factorization, ExactOnSPD compute →
        ∀ (s0 : System) (res : List ℚ), 2 ≤ res.length →
          ∃ s out s' x0 x1, smallSystem s0 = some s ∧
            SolveEigen compute s res = some (0, out, s') ∧
            out[0]? = some x0 ∧ out[1]? = some x1 ∧
            |x0 - 909 / 10000| ≤ 1 / 1000000 ∧ |x1 - 6364 / 10000| ≤ 1 / 1000000) := by
  intro h
  obtain ⟨s, out, s', x0, x1, h1, h2, h3, _, h5, _⟩ :=
    h adjugateSolve adjugateSolve_exact ⟨⟨0, 0, []⟩, []⟩ [0, 0] (by decide)
  obtain ⟨t, out', t', g1, g2, g3, _⟩ :=
    smallSystem_solve adjugateSolve adjugateSolve_exact ⟨⟨0, 0, []⟩, []⟩ [0, 0] (by decide)
  rw [h1] at g1
  have hst : s = t := Option.some.inj g1
  subst hst
  rw [h2] at g2
  have hout : out = out' := by
    have := Option.some.inj g2
    exact (Prod.mk.inj (Prod.mk.inj this).2).1
  subst hout
  rw [h3] at g3
  have hx : x0 = 1 / 11 := Option.some.inj g3
  subst hx
  rw [abs_le] at h5
  norm_num at h5

end Wfem
